import Mathlib

/-!
Verification development for the SecretGateway crypto/token core of the
AgentAddon-EventBridge repository.

The Python sources embedded here:
* `app/services/crypto/crypto_service.py` (`CryptoService`)
* `app/services/crypto/token_store.py` (`InMemoryTokenStore`)
* `app/services/crypto/token_service.py` (`TokenService`)
* `app/services/crypto/token_models.py` (token pydantic models)

Modelling conventions:
* bytes are `Nat` values (`Byte`); byte strings are `List Byte`; values read
  from the OS random source are reduced `% 256` as `os.urandom` returns bytes;
* clock reads (`datetime.utcnow()`) become an explicit `now : Nat` argument;
* the OS entropy source (`secrets` module) becomes an explicit
  `e : Nat → Byte` stream argument, so every operation is a pure function;
* Python exceptions become `Except PyError` / `Option` results;
* the third-party primitives the service calls (`hashlib.sha256`, the Fernet
  scheme of the `cryptography` package, PBKDF2-HMAC-SHA256, base64) are
  implemented structurally below; AES-128 inside Fernet is abstracted to a
  16-byte block-cipher parameter, and the URL-safe base64 transport encoding
  of a whole Fernet token (a bijection on well-formed data) is elided, so a
  Fernet token is modelled as its decoded byte content.
-/

set_option maxHeartbeats 1000000
set_option maxRecDepth 8192

namespace EventBridge

/-- A byte, modelled as a natural number (values produced by the embedded
operations are `< 256`). -/
abbrev Byte := Nat

/-! ## Generic byte-list utilities -/

/-- Split a byte list into consecutive chunks of `n` bytes (last chunk may be
shorter).  Used for the 64-byte SHA-256 blocks and 16-byte CBC blocks. -/
def chunkList (n : Nat) (s : List Byte) : List (List Byte) :=
  if s = [] ∨ n = 0 then []
  else s.take n :: chunkList n (s.drop n)
termination_by s.length
decreasing_by
  simp only [List.length_drop]
  rename_i h
  rcases not_or.mp h with ⟨hs, hn⟩
  exact Nat.sub_lt (List.length_pos.mpr hs) (Nat.pos_of_ne_zero hn)

theorem chunkList_nil (n : Nat) : chunkList n [] = [] := by
  rw [chunkList]; simp

theorem chunkList_flatten (n : Nat) (s : List Byte) (hn : 0 < n) :
    (chunkList n s).flatten = s := by
  induction s using chunkList.induct n with
  | case1 s h =>
    rcases h with h | h
    · subst h; simp [chunkList_nil]
    · omega
  | case2 s h ih =>
    rw [chunkList, if_neg h]
    simp [ih, List.take_append_drop]

theorem chunkList_mem_length (n : Nat) (s : List Byte) :
    n ∣ s.length → ∀ c ∈ chunkList n s, c.length = n := by
  induction s using chunkList.induct n with
  | case1 s h =>
    intro _ c hc
    rw [chunkList, if_pos h] at hc
    simp at hc
  | case2 s h ih =>
    intro hdvd c hc
    rcases not_or.mp h with ⟨hs, hn0⟩
    have hpos : 0 < s.length := List.length_pos.mpr hs
    have hlen : n ≤ s.length := Nat.le_of_dvd hpos hdvd
    rw [chunkList, if_neg h] at hc
    rcases List.mem_cons.mp hc with hc | hc
    · subst hc; simp [List.length_take]; omega
    · exact ih (by simpa [List.length_drop] using Nat.dvd_sub' hdvd (dvd_refl n)) c hc

/-- Splitting a concatenation of uniform `n`-blocks recovers the blocks. -/
theorem chunkList_flatten_blocks (n : Nat) (hn : 0 < n) (bs : List (List Byte))
    (hb : ∀ b ∈ bs, b.length = n) : chunkList n bs.flatten = bs := by
  induction bs with
  | nil => simpa using chunkList_nil n
  | cons b rest ih =>
    have hbn : b.length = n := hb b (List.mem_cons_self b rest)
    have hbne : (b ++ rest.flatten : List Byte) ≠ [] := by
      intro h
      have := congrArg List.length h
      simp [hbn] at this
      omega
    rw [List.flatten_cons, chunkList, if_neg (by simp [hbne]; omega)]
    rw [List.take_left' hbn, List.drop_left' hbn]
    exact congrArg (b :: ·) (ih (fun c hc => hb c (List.mem_cons_of_mem b hc)))

/-- Byte-wise xor of two byte strings (`zipWith`, truncating to the shorter). -/
def xorBytes (a b : List Byte) : List Byte := List.zipWith (· ^^^ ·) a b

theorem xorBytes_length (a b : List Byte) :
    (xorBytes a b).length = min a.length b.length := by
  simp [xorBytes]

theorem xorBytes_cancel (a b : List Byte) (h : a.length = b.length) :
    xorBytes (xorBytes a b) b = a := by
  induction a generalizing b with
  | nil => cases b <;> simp [xorBytes]
  | cons x xs ih =>
    cases b with
    | nil => simp at h
    | cons y ys =>
      simp only [xorBytes, List.zipWith_cons_cons]
      rw [Nat.xor_assoc, Nat.xor_self, Nat.xor_zero]
      exact congrArg (x :: ·) (ih ys (by simpa using h))

/-! ## SHA-256 (model of `hashlib.sha256`, FIPS 180-4) -/

/-- 2^32, the word modulus of SHA-256 arithmetic. -/
def M32 : Nat := 4294967296

/-- Addition modulo 2^32. -/
def add32 (a b : Nat) : Nat := (a + b) % M32

/-- Right rotation of a 32-bit word. -/
def rotr32 (n x : Nat) : Nat := ((x >>> n) ||| (x <<< (32 - n))) % M32

/-- The 64 SHA-256 round constants (FIPS 180-4 §4.2.2, written in decimal). -/
def sha256K : List Nat :=
  [1116352408, 1899447441, 3049323471, 3921009573, 961987163, 1508970993,
   2453635748, 2870763221, 3624381080, 310598401, 607225278, 1426881987,
   1925078388, 2162078206, 2614888103, 3248222580, 3835390401, 4022224774,
   264347078, 604807628, 770255983, 1249150122, 1555081692, 1996064986,
   2554220882, 2821834349, 2952996808, 3210313671, 3336571891, 3584528711,
   113926993, 338241895, 666307205, 773529912, 1294757372, 1396182291,
   1695183700, 1986661051, 2177026350, 2456956037, 2730485921, 2820302411,
   3259730800, 3345764771, 3516065817, 3600352804, 4094571909, 275423344,
   430227734, 506948616, 659060556, 883997877, 958139571, 1322822218,
   1537002063, 1747873779, 1955562222, 2024104815, 2227730452, 2361852424,
   2428436474, 2756734187, 3204031479, 3329325298]

/-- Working state of the SHA-256 compression function. -/
structure Sha256State where
  sa : Nat
  sb : Nat
  sc : Nat
  sd : Nat
  se : Nat
  sf : Nat
  sg : Nat
  sh : Nat

/-- SHA-256 initial hash value (FIPS 180-4 §5.3.3, written in decimal). -/
def sha256Init : Sha256State :=
  ⟨1779033703, 3144134277, 1013904242, 2773480762,
   1359893119, 2600822924, 528734635, 1541459225⟩

/-- Serialize `x` as `n` big-endian bytes. -/
def bytesBE (n x : Nat) : List Byte :=
  (List.range n).map (fun i => (x >>> (8 * (n - 1 - i))) % 256)

theorem bytesBE_length (n x : Nat) : (bytesBE n x).length = n := by
  simp [bytesBE]

/-- Read a big-endian byte string as a natural number. -/
def wordBE (bs : List Byte) : Nat := bs.foldl (fun a b => a * 256 + b) 0

/-- One extension step of the SHA-256 message schedule. -/
def sha256ScheduleStep (w : List Nat) : List Nat :=
  let n := w.length
  let x15 := w.getD (n - 15) 0
  let x2 := w.getD (n - 2) 0
  let s0 := (rotr32 7 x15) ^^^ (rotr32 18 x15) ^^^ (x15 >>> 3)
  let s1 := (rotr32 17 x2) ^^^ (rotr32 19 x2) ^^^ (x2 >>> 10)
  w ++ [add32 (add32 (w.getD (n - 16) 0) s0) (add32 (w.getD (n - 7) 0) s1)]

/-- Extend the 16 chunk words to the 64 schedule words. -/
def sha256Schedule (w : List Nat) : List Nat := sha256ScheduleStep^[48] w

/-- One SHA-256 round; `kw` pairs the round constant with the schedule word. -/
def sha256Round (st : Sha256State) (kw : Nat × Nat) : Sha256State :=
  let bigS1 := (rotr32 6 st.se) ^^^ (rotr32 11 st.se) ^^^ (rotr32 25 st.se)
  let ch := (st.se &&& st.sf) ^^^ ((M32 - 1 - st.se % M32) &&& st.sg)
  let t1 := add32 (add32 (add32 st.sh bigS1) (add32 ch kw.1)) kw.2
  let bigS0 := (rotr32 2 st.sa) ^^^ (rotr32 13 st.sa) ^^^ (rotr32 22 st.sa)
  let maj := (st.sa &&& st.sb) ^^^ (st.sa &&& st.sc) ^^^ (st.sb &&& st.sc)
  let t2 := add32 bigS0 maj
  ⟨add32 t1 t2, st.sa, st.sb, st.sc, add32 st.sd t1, st.se, st.sf, st.sg⟩

/-- Compress one 64-byte chunk into the running state. -/
def sha256Compress (st : Sha256State) (chunk : List Byte) : Sha256State :=
  let w := sha256Schedule ((chunkList 4 chunk).map wordBE)
  let r := (sha256K.zip w).foldl sha256Round st
  ⟨add32 st.sa r.sa, add32 st.sb r.sb, add32 st.sc r.sc, add32 st.sd r.sd,
   add32 st.se r.se, add32 st.sf r.sf, add32 st.sg r.sg, add32 st.sh r.sh⟩

/-- SHA-256 message padding: `0x80`, zeros, then the 64-bit bit length. -/
def sha256Pad (m : List Byte) : List Byte :=
  m ++ 0x80 :: (List.replicate ((119 - m.length % 64) % 64) 0
    ++ bytesBE 8 ((8 * m.length) % (M32 * M32)))

/-- SHA-256 digest of a byte string (model of `hashlib.sha256(...).digest()`). -/
def sha256 (m : List Byte) : List Byte :=
  let st := (chunkList 64 (sha256Pad m)).foldl sha256Compress sha256Init
  bytesBE 4 st.sa ++ bytesBE 4 st.sb ++ bytesBE 4 st.sc ++ bytesBE 4 st.sd ++
  bytesBE 4 st.se ++ bytesBE 4 st.sf ++ bytesBE 4 st.sg ++ bytesBE 4 st.sh

/-- A SHA-256 digest is always exactly 32 bytes. -/
theorem sha256_length (m : List Byte) : (sha256 m).length = 32 := by
  simp [sha256, bytesBE_length]

/-! ## HMAC-SHA256 (RFC 2104 with SHA-256, block size 64) -/

/-- HMAC-SHA256 of `msg` under `key`. -/
def hmacSha256 (key msg : List Byte) : List Byte :=
  let k1 := if 64 < key.length then sha256 key else key
  let k0 := k1 ++ List.replicate (64 - k1.length) 0
  sha256 ((k0.map (fun b => b ^^^ 0x5c)) ++ sha256 ((k0.map (fun b => b ^^^ 0x36)) ++ msg))

theorem hmacSha256_length (key msg : List Byte) :
    (hmacSha256 key msg).length = 32 := by
  simp [hmacSha256, sha256_length]

/-! ## Base64 and hex encodings (models of `base64` / `bytes.hex`) -/

/-- The standard base64 alphabet, as ASCII codes. -/
def b64alphabet : List Byte :=
  "ABCDEFGHIJKLMNOPQRSTUVWXYZabcdefghijklmnopqrstuvwxyz0123456789+/".toList.map Char.toNat

/-- The URL-safe base64 alphabet (`-` and `_` for the last two symbols). -/
def b64urlAlphabet : List Byte :=
  "ABCDEFGHIJKLMNOPQRSTUVWXYZabcdefghijklmnopqrstuvwxyz0123456789-_".toList.map Char.toNat

/-- Character (ASCII code) for sextet `i` in alphabet `alpha`. -/
def b64char (alpha : List Byte) (i : Nat) : Byte := alpha.getD i 65

/-- Base64-encode by 3-byte groups with `=` (ASCII 61) padding. -/
def b64groups (alpha : List Byte) : List Byte → List Byte
  | [] => []
  | [b1] =>
      [b64char alpha (b1 >>> 2), b64char alpha ((b1 % 4) <<< 4), 61, 61]
  | [b1, b2] =>
      [b64char alpha (b1 >>> 2), b64char alpha (((b1 % 4) <<< 4) + (b2 >>> 4)),
       b64char alpha ((b2 % 16) <<< 2), 61]
  | b1 :: b2 :: b3 :: rest =>
      b64char alpha (b1 >>> 2) :: b64char alpha (((b1 % 4) <<< 4) + (b2 >>> 4)) ::
      b64char alpha (((b2 % 16) <<< 2) + (b3 >>> 6)) :: b64char alpha (b3 % 64) ::
      b64groups alpha rest

theorem b64groups_length (alpha : List Byte) (s : List Byte) :
    (b64groups alpha s).length = 4 * ((s.length + 2) / 3) := by
  induction s using b64groups.induct alpha with
  | case1 => simp [b64groups]
  | case2 b1 => simp [b64groups]
  | case3 b1 b2 => simp [b64groups]
  | case4 b1 b2 b3 rest ih =>
    simp only [b64groups, List.length_cons, ih, List.length_cons]
    omega

/-- Model of `base64.b64encode`. -/
def b64encode (s : List Byte) : List Byte := b64groups b64alphabet s

theorem b64encode_length (s : List Byte) :
    (b64encode s).length = 4 * ((s.length + 2) / 3) := b64groups_length _ s

/-- Model of `base64.urlsafe_b64encode(s).rstrip(b"=")`, as used by
`secrets.token_urlsafe`.  `=` (61) never occurs in the alphabet, so stripping
the padding is a filter. -/
def b64urlsafeNoPad (s : List Byte) : List Byte :=
  (b64groups b64urlAlphabet s).filter (fun c => c ≠ 61)

/-- Hex digits. -/
def hexDigits : List Char := "0123456789abcdef".toList

/-- Model of `bytes.hex()` (used by `secrets.token_hex`). -/
def hexOfBytes (bs : List Byte) : String :=
  String.mk (bs.flatMap (fun b => [hexDigits.getD (b / 16) 'x', hexDigits.getD (b % 16) 'x']))

theorem hexOfBytes_length (bs : List Byte) :
    (hexOfBytes bs).length = 2 * bs.length := by
  induction bs with
  | nil => rfl
  | cons b rest ih =>
    simp only [hexOfBytes, String.length_mk, List.flatMap_cons, List.length_append,
      List.length_cons, List.length_nil] at ih ⊢
    omega

/-! ## Error taxonomy

Mirrors the Python exception types raised by the embedded code:
`ValueError`, `CryptoError`, `EncryptionError`, `DecryptionError`,
`TokenIssuanceError`, and pydantic request-validation errors. -/

inductive PyError where
  | valueError (msg : String)
  | cryptoError (msg : String)
  | encryptionError (msg : String)
  | decryptionError (msg : String)
  | tokenIssuanceError (msg : String)
  | validationError (msg : String)
deriving Repr, DecidableEq

/-! ## The `secrets` module -/

/-- Model of `secrets.token_bytes(n)` (ultimately `os.urandom(n)`) reading from
entropy stream `e`: a negative count raises `ValueError`; otherwise the next
`n` bytes of the stream are returned (`os.urandom(0)` returns `b""`). -/
def tokenBytes (e : Nat → Byte) (n : Int) : Except PyError (List Byte) :=
  if n < 0 then .error (.valueError "negative argument not allowed")
  else .ok ((List.range n.toNat).map (fun i => e i % 256))

/-- Model of `secrets.token_hex(n)`. -/
def tokenHex (e : Nat → Byte) (n : Int) : Except PyError String :=
  (tokenBytes e n).map hexOfBytes

/-- Model of `secrets.token_urlsafe(n)`. -/
def tokenUrlsafe (e : Nat → Byte) (n : Int) : Except PyError String :=
  (tokenBytes e n).map (fun bs => String.mk ((b64urlsafeNoPad bs).map Char.ofNat))

/-! ## `CryptoService` random generation -/

namespace CryptoService

/-- `CryptoService.generate_secret`: explicit positivity check, then
`secrets.token_bytes`. -/
def generate_secret (e : Nat → Byte) (length : Int) : Except PyError (List Byte) :=
  if length ≤ 0 then .error (.valueError "Secret length must be positive")
  else tokenBytes e length

/-- `CryptoService.generate_secret_hex`: delegates directly to
`secrets.token_hex` with no validation of its own. -/
def generate_secret_hex (e : Nat → Byte) (length : Int) : Except PyError String :=
  tokenHex e length

/-- `CryptoService.generate_secret_urlsafe`: delegates directly to
`secrets.token_urlsafe` with no validation of its own. -/
def generate_secret_urlsafe (e : Nat → Byte) (length : Int) : Except PyError String :=
  tokenUrlsafe e length

end CryptoService

/-! ## PKCS7 padding (block size 16, as in Fernet's AES-CBC layer) -/

/-- PKCS7-pad `m` to a multiple of 16 bytes: append `k` copies of `k`,
`1 ≤ k ≤ 16`. -/
def pkcs7pad (m : List Byte) : List Byte :=
  let k := 16 - m.length % 16
  m ++ List.replicate k k

/-- PKCS7 unpadding: reject empty or non-multiple-of-16 input, read the final
byte `k`, check the last `k` bytes all equal `k`, and strip them. -/
def pkcs7unpad (s : List Byte) : Option (List Byte) :=
  if s.length = 0 ∨ ¬ (16 ∣ s.length) then none
  else
    let k := s.getLastD 0
    if k = 0 ∨ 16 < k ∨ s.length < k then none
    else if (s.drop (s.length - k)).all (fun b => b == k) then
      some (s.take (s.length - k))
    else none

theorem replicate_getLast? (n : Nat) (a : Byte) :
    (List.replicate (n + 1) a).getLast? = some a := by
  induction n with
  | zero => rfl
  | succ k ih => simpa [List.replicate_succ, List.getLast?_cons] using ih

theorem pkcs7pad_length (m : List Byte) :
    (pkcs7pad m).length = m.length + (16 - m.length % 16) := by
  simp [pkcs7pad]

theorem pkcs7pad_dvd (m : List Byte) : 16 ∣ (pkcs7pad m).length := by
  rw [pkcs7pad_length]
  refine ⟨m.length / 16 + 1, ?_⟩
  have h := Nat.div_add_mod m.length 16
  have h2 : m.length % 16 < 16 := Nat.mod_lt _ (by omega)
  omega

theorem pkcs7pad_ne_nil (m : List Byte) : pkcs7pad m ≠ [] := by
  intro h
  have := congrArg List.length h
  rw [pkcs7pad_length] at this
  have h2 : m.length % 16 < 16 := Nat.mod_lt _ (by omega)
  simp at this
  omega

/-- Unpadding inverts padding. -/
theorem pkcs7unpad_pad (m : List Byte) : pkcs7unpad (pkcs7pad m) = some m := by
  have h2 : m.length % 16 < 16 := Nat.mod_lt _ (by omega)
  set k := 16 - m.length % 16 with hk
  have hk1 : 1 ≤ k := by omega
  have hk16 : k ≤ 16 := by omega
  have hpad : pkcs7pad m = m ++ List.replicate k k := rfl
  have hlen : (pkcs7pad m).length = m.length + k := pkcs7pad_length m
  have hlast : (pkcs7pad m).getLastD 0 = k := by
    rw [List.getLastD_eq_getLast?, hpad, List.getLast?_append]
    rcases Nat.exists_eq_add_of_le hk1 with ⟨j, hj⟩
    rw [hj, Nat.add_comm 1 j, replicate_getLast?]
    rfl
  have hdrop : (pkcs7pad m).drop ((pkcs7pad m).length - k) = List.replicate k k := by
    rw [hlen, hpad, show m.length + k - k = m.length by omega, List.drop_left]
  have htake : (pkcs7pad m).take ((pkcs7pad m).length - k) = m := by
    rw [hlen, hpad, show m.length + k - k = m.length by omega, List.take_left]
  have hne0 : ¬ ((pkcs7pad m).length = 0 ∨ ¬ 16 ∣ (pkcs7pad m).length) := by
    push_neg
    refine ⟨?_, pkcs7pad_dvd m⟩
    rw [hlen]; omega
  have hbounds : ¬ (k = 0 ∨ 16 < k ∨ (pkcs7pad m).length < k) := by
    push_neg
    refine ⟨by omega, by omega, ?_⟩
    rw [hlen]; omega
  simp only [pkcs7unpad, hlast, hdrop, htake]
  rw [if_neg hne0, if_neg hbounds,
    if_pos (by simp [List.all_eq_true, List.mem_replicate])]

/-! ## CBC mode over an abstract 16-byte block cipher

The AES-128 instance Fernet uses (keyed by the second half of the Fernet key)
is abstracted as a pair of block maps; theorems assume only that decryption
inverts encryption on 16-byte blocks and that ciphertext blocks are 16 bytes. -/

structure BlockCipher where
  enc : List Byte → List Byte
  dec : List Byte → List Byte

/-- The property AES-128 provides: `dec` inverts `enc` on 16-byte blocks and
`enc` preserves the block length. -/
def goodCipher (bc : BlockCipher) : Prop :=
  ∀ b : List Byte, b.length = 16 → bc.dec (bc.enc b) = b ∧ (bc.enc b).length = 16

/-- CBC encryption over a list of plaintext blocks; `prev` is the IV and then
the previous ciphertext block. -/
def cbcEnc (bc : BlockCipher) (prev : List Byte) : List (List Byte) → List (List Byte)
  | [] => []
  | b :: bs =>
    let c := bc.enc (xorBytes b prev)
    c :: cbcEnc bc c bs

/-- CBC decryption over a list of ciphertext blocks. -/
def cbcDec (bc : BlockCipher) (prev : List Byte) : List (List Byte) → List (List Byte)
  | [] => []
  | c :: cs => xorBytes (bc.dec c) prev :: cbcDec bc c cs

theorem cbcEnc_lengths (bc : BlockCipher) (hbc : goodCipher bc) :
    ∀ (bs : List (List Byte)) (prev : List Byte), prev.length = 16 →
      (∀ b ∈ bs, b.length = 16) → ∀ c ∈ cbcEnc bc prev bs, c.length = 16 := by
  intro bs
  induction bs with
  | nil => intro prev _ _ c hc; simp [cbcEnc] at hc
  | cons b rest ih =>
    intro prev hprev hall c hc
    have hb : b.length = 16 := hall b (List.mem_cons_self b rest)
    have hxor : (xorBytes b prev).length = 16 := by
      rw [xorBytes_length, hb, hprev]; rfl
    have henc := (hbc _ hxor).2
    simp only [cbcEnc, List.mem_cons] at hc
    rcases hc with hc | hc
    · rw [hc]; exact henc
    · exact ih _ henc (fun x hx => hall x (List.mem_cons_of_mem b hx)) c hc

/-- CBC decryption inverts CBC encryption. -/
theorem cbc_roundtrip (bc : BlockCipher) (hbc : goodCipher bc) :
    ∀ (bs : List (List Byte)) (prev : List Byte), prev.length = 16 →
      (∀ b ∈ bs, b.length = 16) → cbcDec bc prev (cbcEnc bc prev bs) = bs := by
  intro bs
  induction bs with
  | nil => intro prev _ _; rfl
  | cons b rest ih =>
    intro prev hprev hall
    have hb : b.length = 16 := hall b (List.mem_cons_self b rest)
    have hxor : (xorBytes b prev).length = 16 := by
      rw [xorBytes_length, hb, hprev]; rfl
    have hdec := (hbc _ hxor).1
    have henc := (hbc _ hxor).2
    simp only [cbcEnc, cbcDec, hdec]
    rw [xorBytes_cancel b prev (by rw [hb, hprev]),
      ih _ henc (fun x hx => hall x (List.mem_cons_of_mem b hx))]

theorem flatten_length_uniform (n : Nat) :
    ∀ bs : List (List Byte), (∀ b ∈ bs, b.length = n) →
      bs.flatten.length = n * bs.length := by
  intro bs
  induction bs with
  | nil => simp
  | cons b rest ih =>
    intro hall
    simp only [List.flatten_cons, List.length_append, List.length_cons,
      hall b (List.mem_cons_self b rest),
      ih (fun x hx => hall x (List.mem_cons_of_mem b hx))]
    ring

/-! ## The Fernet scheme (model of `cryptography.fernet.Fernet`)

A Fernet token is `0x80 ‖ timestamp(8, big-endian) ‖ IV(16) ‖ AES-CBC
ciphertext ‖ HMAC-SHA256 tag(32)` over everything before the tag, signed with
the first half of the key; the token is modelled as its decoded byte content
(the outer URL-safe base64 transport encoding, a bijection on well-formed
data, is elided).  `decrypt` raises `InvalidToken` (here: `none`) on every
failure: bad structure, stale or far-future timestamp when a `ttl` is given,
tag mismatch, CBC length error, or bad padding. -/

/-- A Fernet key: the HMAC signing half, and the AES-128 encryption half
abstracted as a block cipher. -/
structure FernetKey where
  signKey : List Byte
  cipher : BlockCipher

/-- `Fernet.encrypt` at timestamp `ts` with fresh IV `iv`. -/
def fernetEncrypt (fk : FernetKey) (ts : Nat) (iv : List Byte) (m : List Byte) :
    List Byte :=
  let ct := (cbcEnc fk.cipher iv (chunkList 16 (pkcs7pad m))).flatten
  let body := 0x80 :: (bytesBE 8 ts ++ (iv ++ ct))
  body ++ hmacSha256 fk.signKey body

/-- `Fernet.decrypt` with optional `ttl`; `none` models `InvalidToken`.
`_MAX_CLOCK_SKEW = 60`; the timestamp checks run only when a `ttl` is given,
as in the library. -/
def fernetDecrypt (fk : FernetKey) (tok : List Byte) (ttl : Option Nat)
    (now : Nat) : Option (List Byte) :=
  if tok.length < 57 then none
  else if tok.headD 0 ≠ 0x80 then none
  else
    let ts := wordBE ((tok.drop 1).take 8)
    if (match ttl with
        | some d => decide (ts + d < now) || decide (now + 60 < ts)
        | none => false) then none
    else
      let body := tok.take (tok.length - 32)
      let tag := tok.drop (tok.length - 32)
      if tag ≠ hmacSha256 fk.signKey body then none
      else
        let iv := (tok.drop 9).take 16
        let ct := body.drop 25
        if ¬ (16 ∣ ct.length) then none
        else pkcs7unpad ((cbcDec fk.cipher iv (chunkList 16 ct)).flatten)

namespace CryptoService

/-- `CryptoService.encrypt`: delegates to Fernet (which does not fail on any
plaintext). -/
def encrypt (fk : FernetKey) (ts : Nat) (iv : List Byte) (m : List Byte) :
    Except PyError (List Byte) :=
  .ok (fernetEncrypt fk ts iv m)

/-- `CryptoService.decrypt`: every Fernet failure is re-raised as
`DecryptionError("Invalid or expired token")`. -/
def decrypt (fk : FernetKey) (tok : List Byte) (ttl : Option Nat) (now : Nat) :
    Except PyError (List Byte) :=
  match fernetDecrypt fk tok ttl now with
  | some m => .ok m
  | none => .error (.decryptionError "Invalid or expired token")

end CryptoService

/-- Fernet decryption with no `ttl` recovers any encrypted plaintext, for any
key whose block cipher is a genuine 16-byte block permutation and any 16-byte
IV. -/
theorem fernetDecrypt_fernetEncrypt (fk : FernetKey) (hbc : goodCipher fk.cipher)
    (ts now : Nat) (iv m : List Byte) (hiv : iv.length = 16) :
    fernetDecrypt fk (fernetEncrypt fk ts iv m) none now = some m := by
  have hpadv := pkcs7pad_dvd m
  have hblocks : ∀ b ∈ chunkList 16 (pkcs7pad m), b.length = 16 :=
    chunkList_mem_length 16 (pkcs7pad m) hpadv
  have hct : ∀ c ∈ cbcEnc fk.cipher iv (chunkList 16 (pkcs7pad m)), c.length = 16 :=
    cbcEnc_lengths fk.cipher hbc _ iv hiv hblocks
  set ctb := cbcEnc fk.cipher iv (chunkList 16 (pkcs7pad m)) with hctb
  set ct := ctb.flatten with hctdef
  have hctlen : ct.length = 16 * ctb.length := flatten_length_uniform 16 ctb hct
  have hctdvd : 16 ∣ ct.length := ⟨ctb.length, hctlen⟩
  set tsb := bytesBE 8 ts with htsb
  have htsb8 : tsb.length = 8 := bytesBE_length 8 ts
  set body := 0x80 :: (tsb ++ (iv ++ ct)) with hbody
  set tag := hmacSha256 fk.signKey body with htag
  have htag32 : tag.length = 32 := hmacSha256_length _ _
  have hbodylen : body.length = 25 + ct.length := by
    rw [hbody]
    simp [htsb8, hiv]
    omega
  have htok : fernetEncrypt fk ts iv m = body ++ tag := rfl
  have htoklen : (fernetEncrypt fk ts iv m).length = 57 + ct.length := by
    rw [htok, List.length_append, hbodylen, htag32]
    omega
  rw [fernetDecrypt, if_neg (by rw [htoklen]; omega)]
  rw [if_neg (by rw [htok, hbody]; simp)]
  have hsub : (fernetEncrypt fk ts iv m).length - 32 = body.length := by
    rw [htoklen, hbodylen]; omega
  have hbodyrec : (fernetEncrypt fk ts iv m).take ((fernetEncrypt fk ts iv m).length - 32) = body := by
    rw [hsub, htok, List.take_left]
  have htagrec : (fernetEncrypt fk ts iv m).drop ((fernetEncrypt fk ts iv m).length - 32) = tag := by
    rw [hsub, htok, List.drop_left]
  simp only [hbodyrec, htagrec]
  rw [if_neg (by simp)]
  have hassoc : fernetEncrypt fk ts iv m = ([0x80] ++ tsb) ++ (iv ++ (ct ++ tag)) := by
    rw [htok, hbody]
    simp [List.append_assoc]
  have hivrec : ((fernetEncrypt fk ts iv m).drop 9).take 16 = iv := by
    rw [hassoc, List.drop_left' (by simp [htsb8]), List.take_left' hiv]
  have hctrec : body.drop 25 = ct := by
    have : body = (([0x80] ++ tsb) ++ iv) ++ ct := by
      rw [hbody]; simp [List.append_assoc]
    rw [this, List.drop_left' (by simp [htsb8, hiv])]
  simp only [hivrec, hctrec]
  rw [if_neg (not_not.mpr hctdvd)]
  rw [hctdef]
  rw [chunkList_flatten_blocks 16 (by omega) ctb hct]
  rw [hctb]
  rw [cbc_roundtrip fk.cipher hbc _ iv hiv hblocks]
  rw [chunkList_flatten 16 (pkcs7pad m) (by omega)]
  rw [if_neg (not_not.mpr htag)]
  exact pkcs7unpad_pad m

/-! ## PBKDF2-HMAC-SHA256 (model of
`cryptography.hazmat.primitives.kdf.pbkdf2.PBKDF2HMAC` with SHA-256) -/

/-- The iterated-xor chain of PBKDF2: `n` further HMAC applications folded
into the accumulator. -/
def pbkdf2U (pw : List Byte) (u acc : List Byte) : Nat → List Byte
  | 0 => acc
  | n + 1 =>
    let u' := hmacSha256 pw u
    pbkdf2U pw u' (xorBytes acc u') n

/-- PBKDF2-HMAC-SHA256 for `dkLen ≤ 32`: a single block
`T₁ = U₁ ^^^ ... ^^^ U_c` with `U₁ = HMAC(pw, salt ‖ INT(1))`, truncated to
`dkLen` bytes.  The service only ever requests `length=32`, which one block
covers exactly. -/
def pbkdf2HmacSha256 (pw salt : List Byte) (c dkLen : Nat) : List Byte :=
  let u1 := hmacSha256 pw (salt ++ [0, 0, 0, 1])
  (pbkdf2U pw u1 u1 (c - 1)).take dkLen

theorem pbkdf2U_length (pw : List Byte) :
    ∀ (n : Nat) (u acc : List Byte), acc.length = 32 →
      (pbkdf2U pw u acc n).length = 32 := by
  intro n
  induction n with
  | zero => intro u acc h; exact h
  | succ k ih =>
    intro u acc h
    simp only [pbkdf2U]
    exact ih _ _ (by rw [xorBytes_length, h, hmacSha256_length]; rfl)

theorem pbkdf2HmacSha256_length (pw salt : List Byte) (c dkLen : Nat)
    (h : dkLen ≤ 32) : (pbkdf2HmacSha256 pw salt c dkLen).length = dkLen := by
  simp only [pbkdf2HmacSha256, List.length_take]
  rw [pbkdf2U_length pw _ _ _ (hmacSha256_length _ _)]
  omega

/-- UTF-8 encoding of a string (model of `str.encode("utf-8")`). -/
def utf8Bytes (s : String) : List Byte := s.toUTF8.toList.map (fun b => b.toNat)

namespace CryptoService

/-- `CryptoService.DEFAULT_SECRET_LENGTH`. -/
def DEFAULT_SECRET_LENGTH : Nat := 32

/-- `CryptoService.DEFAULT_SALT_LENGTH`. -/
def DEFAULT_SALT_LENGTH : Nat := 16

/-- `CryptoService.PBKDF2_ITERATIONS`. -/
def PBKDF2_ITERATIONS : Nat := 480000

/-- Result shape of `hash_data` / `derive_key_from_password`: either the bare
digest/key, or a pair with the salt, depending on `return_salt`. -/
inductive HashResult where
  | digest (d : List Byte)
  | digestSalt (d salt : List Byte)
deriving Repr, DecidableEq

/-- The digest component of a `hash_data` result. -/
def HashResult.digestBytes : HashResult → List Byte
  | .digest d => d
  | .digestSalt d _ => d

/-- The salt component of a `hash_data` result, when one was returned. -/
def HashResult.returnedSalt : HashResult → Option (List Byte)
  | .digest _ => none
  | .digestSalt _ s => some s

/-- `CryptoService.hash_data`: SHA-256 of `salt ‖ data`; a 16-byte salt is
generated when none is supplied; the salt is returned only when
`return_salt` is set.  (`generate_secret` cannot fail at the fixed positive
length 16; the error branch is unreachable.) -/
def hash_data (e : Nat → Byte) (data : List Byte) (salt : Option (List Byte))
    (return_salt : Bool) : HashResult :=
  let s := match salt with
    | some s => s
    | none =>
      match generate_secret e (Int.ofNat DEFAULT_SALT_LENGTH) with
      | .ok bs => bs
      | .error _ => []
  let h := sha256 (s ++ data)
  if return_salt then .digestSalt h s else .digest h

/-- `CryptoService.derive_key_from_password`: PBKDF2-HMAC-SHA256 with 480000
iterations and a 32-byte derived key, returned base64-encoded; a 16-byte salt
is generated when none is supplied and returned only when `return_salt` is
set. -/
def derive_key_from_password (e : Nat → Byte) (password : String)
    (salt : Option (List Byte)) (return_salt : Bool) :
    List Byte × Option (List Byte) :=
  let s := match salt with
    | some s => s
    | none =>
      match generate_secret e (Int.ofNat DEFAULT_SALT_LENGTH) with
      | .ok bs => bs
      | .error _ => []
  let key := b64encode (pbkdf2HmacSha256 (utf8Bytes password) s PBKDF2_ITERATIONS 32)
  (key, if return_salt then some s else none)

end CryptoService

/-! ## Token models (`token_models.py`) -/

/-- `TokenScope`: resource, allowed actions, scope metadata. -/
structure TokenScope where
  resource : String
  actions : List String
  metadata : List (String × String)
deriving Repr, DecidableEq

/-- `Token`: the stored ephemeral token record. -/
structure Token where
  token_id : String
  scope : TokenScope
  created_at : Nat
  expires_at : Nat
  metadata : List (String × String)
deriving Repr, DecidableEq

/-- `Token.is_expired`: `datetime.utcnow() >= self.expires_at`. -/
def Token.is_expired (t : Token) (now : Nat) : Bool := decide (now ≥ t.expires_at)

/-- `TokenIssuanceResponse`. -/
structure TokenIssuanceResponse where
  token_id : String
  scope : TokenScope
  expires_at : Nat
  ttl_seconds : Int
  message : String
deriving Repr, DecidableEq

/-- `TokenValidationResponse`. -/
structure TokenValidationResponse where
  valid : Bool
  token_id : Option String
  scope : Option TokenScope
  expires_at : Option Nat
  ttl_remaining : Option Nat
  reason : Option String
deriving Repr, DecidableEq

/-- `TokenValidationRequest` (pydantic model; `token_id` has `min_length=1`). -/
structure TokenValidationRequest where
  token_id : String
deriving Repr, DecidableEq

/-- Constructing a `TokenValidationRequest`, including the pydantic
`min_length=1` constraint on `token_id`; FastAPI runs this validation before
the route handler is entered. -/
def mkTokenValidationRequest (tid : String) : Except PyError TokenValidationRequest :=
  if tid.length ≥ 1 then .ok ⟨tid⟩
  else .error (.validationError "String should have at least 1 character")

/-! ## Token store (`token_store.py`)

The Python `dict` keyed by `token_id` is modelled as an association list with
dict semantics: lookup finds the (unique) matching key, assignment replaces in
place or appends, `del` removes the entry. -/

/-- The `InMemoryTokenStore._store` mapping. -/
abbrev Store := List (String × Token)

/-- Dict lookup: `self._store.get(token_id)`. -/
def lookupTok : Store → String → Option Token
  | [], _ => none
  | (k, t) :: rest, tid => if k = tid then some t else lookupTok rest tid

/-- Dict assignment: `self._store[token.token_id] = token`. -/
def putTok : Store → Token → Store
  | [], t => [(t.token_id, t)]
  | (k, u) :: rest, t =>
    if k = t.token_id then (k, t) :: rest else (k, u) :: putTok rest t

/-- Dict deletion: `del self._store[token_id]`. -/
def eraseTok : Store → String → Store
  | [], _ => []
  | (k, t) :: rest, tid => if k = tid then rest else (k, t) :: eraseTok rest tid

/-- Dict membership: `token_id in self._store`. -/
def containsTok (s : Store) (tid : String) : Bool := (lookupTok s tid).isSome

namespace InMemoryTokenStore

/-- `InMemoryTokenStore.store`. -/
def store (s : Store) (t : Token) : Store := putTok s t

/-- `InMemoryTokenStore.get`: return the token if present and unexpired;
lazily evict it (and return absent) if present but expired. -/
def get (s : Store) (tid : String) (now : Nat) : Option Token × Store :=
  match lookupTok s tid with
  | none => (none, s)
  | some t => if t.is_expired now then (none, eraseTok s tid) else (some t, s)

/-- `InMemoryTokenStore.remove`: delete if present, reporting whether
anything was removed; expiry is not consulted. -/
def remove (s : Store) (tid : String) : Bool × Store :=
  if containsTok s tid then (true, eraseTok s tid) else (false, s)

/-- `InMemoryTokenStore.cleanup_expired`: drop every entry with
`expires_at <= now` and report how many were dropped. -/
def cleanup_expired (s : Store) (now : Nat) : Nat × Store :=
  let expired := s.filter (fun p => decide (p.2.expires_at ≤ now))
  (expired.length, s.filter (fun p => ! decide (p.2.expires_at ≤ now)))

/-- `InMemoryTokenStore.count`: run `cleanup_expired` first, then report the
store size. -/
def count (s : Store) (now : Nat) : Nat × Store :=
  let r := cleanup_expired s now
  (r.2.length, r.2)

end InMemoryTokenStore

/-! ## Token service (`token_service.py`) -/

namespace TokenService

/-- `TokenService.issue_token`: validate `1 ≤ ttl_seconds ≤ 3600` (a violation
raises `ValueError`, re-raised as `TokenIssuanceError`, before anything is
stored), generate a URL-safe token id from 32 random bytes, build the record
with `expires_at = created_at + ttl_seconds`, store it, and return the
response. -/
def issue_token (e : Nat → Byte) (now : Nat) (scope : TokenScope)
    (ttl_seconds : Int) (metadata : List (String × String)) (s : Store) :
    Except PyError TokenIssuanceResponse × Store :=
  if ttl_seconds < 1 then
    (.error (.tokenIssuanceError "Invalid token parameters: TTL must be at least 1 second"), s)
  else if ttl_seconds > 3600 then
    (.error (.tokenIssuanceError "Invalid token parameters: TTL cannot exceed 3600 seconds"), s)
  else
    match CryptoService.generate_secret_urlsafe e 32 with
    | .error _ => (.error (.tokenIssuanceError "Token issuance failed"), s)
    | .ok tid =>
      let created_at := now
      let expires_at := created_at + ttl_seconds.toNat
      let token : Token := ⟨tid, scope, created_at, expires_at, metadata⟩
      (.ok ⟨tid, scope, expires_at, ttl_seconds, "Token issued successfully"⟩,
       InMemoryTokenStore.store s token)

/-- `TokenService.validate_token`: look up through the store (which may
lazily evict); absent means a normal `valid=false` response, present means
`valid=true` with the token's details. -/
def validate_token (s : Store) (now : Nat) (tid : String) :
    TokenValidationResponse × Store :=
  match InMemoryTokenStore.get s tid now with
  | (none, s') =>
    (⟨false, some tid, none, none, none, some "Token not found or has expired"⟩, s')
  | (some t, s') =>
    (⟨true, some t.token_id, some t.scope, some t.expires_at,
      some (t.expires_at - now), none⟩, s')

/-- `TokenService.revoke_token`: delegate to `InMemoryTokenStore.remove`. -/
def revoke_token (s : Store) (tid : String) : Bool × Store :=
  InMemoryTokenStore.remove s tid

end TokenService

/-- The `/tokens/validate` route: FastAPI validates the request body against
`TokenValidationRequest` (rejecting an empty `token_id` before the handler
runs), then the handler calls `TokenService.validate_token`. -/
def validateEndpoint (s : Store) (now : Nat) (tid : String) :
    Except PyError (TokenValidationResponse × Store) :=
  (mkTokenValidationRequest tid).map
    (fun r => TokenService.validate_token s now r.token_id)

/-! ## Store helper lemmas -/

/-- Unique keys, the invariant a Python `dict` maintains by construction. -/
def keysNodup (s : Store) : Prop := (s.map Prod.fst).Nodup

theorem lookupTok_eq_none_of_not_mem (s : Store) (tid : String)
    (h : tid ∉ s.map Prod.fst) : lookupTok s tid = none := by
  induction s with
  | nil => rfl
  | cons p rest ih =>
    obtain ⟨k, t⟩ := p
    simp only [List.map_cons, List.mem_cons] at h
    push_neg at h
    simp only [lookupTok, if_neg (Ne.symm h.1)]
    exact ih h.2

theorem lookupTok_putTok_self (s : Store) (t : Token) :
    lookupTok (putTok s t) t.token_id = some t := by
  induction s with
  | nil => simp [putTok, lookupTok]
  | cons p rest ih =>
    obtain ⟨k, u⟩ := p
    by_cases hk : k = t.token_id
    · simp [putTok, hk, lookupTok]
    · simp only [putTok, if_neg hk, lookupTok, if_neg hk]
      exact ih

theorem lookupTok_eraseTok_self (s : Store) (tid : String) (h : keysNodup s) :
    lookupTok (eraseTok s tid) tid = none := by
  induction s with
  | nil => rfl
  | cons p rest ih =>
    obtain ⟨k, t⟩ := p
    simp only [keysNodup, List.map_cons, List.nodup_cons] at h
    by_cases hk : k = tid
    · simp only [eraseTok, if_pos hk]
      exact lookupTok_eq_none_of_not_mem rest tid (hk ▸ h.1)
    · simp only [eraseTok, if_neg hk, lookupTok, if_neg hk]
      exact ih h.2

theorem lookupTok_eraseTok_other (s : Store) (tid tid' : String)
    (h : tid' ≠ tid) : lookupTok (eraseTok s tid) tid' = lookupTok s tid' := by
  induction s with
  | nil => rfl
  | cons p rest ih =>
    obtain ⟨k, t⟩ := p
    by_cases hk : k = tid
    · have hk2 : k ≠ tid' := by intro he; subst he; exact h hk
      simp only [eraseTok, if_pos hk, lookupTok, if_neg hk2]
    · simp only [eraseTok, if_neg hk, lookupTok]
      by_cases hk' : k = tid'
      · simp [hk']
      · simp only [if_neg hk']
        exact ih

theorem containsTok_iff (s : Store) (tid : String) :
    containsTok s tid = true ↔ ∃ t, lookupTok s tid = some t := by
  unfold containsTok
  cases h : lookupTok s tid <;> simp [h]

theorem tokenBytes_ok (e : Nat → Byte) (n : Int) (h : ¬ n < 0) :
    tokenBytes e n = .ok ((List.range n.toNat).map (fun i => e i % 256)) := by
  simp [tokenBytes, h]

theorem tokenBytes_neg (e : Nat → Byte) (n : Int) (h : n < 0) :
    tokenBytes e n = .error (.valueError "negative argument not allowed") := by
  simp [tokenBytes, h]

theorem tokenHex_ok (e : Nat → Byte) (n : Int) (h : ¬ n < 0) :
    tokenHex e n = .ok (hexOfBytes ((List.range n.toNat).map (fun i => e i % 256))) := by
  rw [tokenHex, tokenBytes_ok e n h]
  rfl

theorem tokenHex_neg (e : Nat → Byte) (n : Int) (h : n < 0) :
    tokenHex e n = .error (.valueError "negative argument not allowed") := by
  rw [tokenHex, tokenBytes_neg e n h]
  rfl

theorem tokenUrlsafe_neg (e : Nat → Byte) (n : Int) (h : n < 0) :
    tokenUrlsafe e n = .error (.valueError "negative argument not allowed") := by
  rw [tokenUrlsafe, tokenBytes_neg e n h]
  rfl

theorem tokenUrlsafe_ok (e : Nat → Byte) (n : Int) (h : ¬ n < 0) :
    tokenUrlsafe e n = .ok (String.mk ((b64urlsafeNoPad
      ((List.range n.toNat).map (fun i => e i % 256))).map Char.ofNat)) := by
  simp [tokenUrlsafe, tokenBytes, h, Except.map]

theorem get_of_lookup_none (s : Store) (tid : String) (now : Nat)
    (h : lookupTok s tid = none) : InMemoryTokenStore.get s tid now = (none, s) := by
  unfold InMemoryTokenStore.get
  rw [h]

theorem get_of_lookup_live (s : Store) (tid : String) (now : Nat) (t : Token)
    (h : lookupTok s tid = some t) (hlive : now < t.expires_at) :
    InMemoryTokenStore.get s tid now = (some t, s) := by
  unfold InMemoryTokenStore.get
  rw [h]
  simp only [Token.is_expired]
  rw [if_neg (by simp; omega)]

theorem get_of_lookup_expired (s : Store) (tid : String) (now : Nat) (t : Token)
    (h : lookupTok s tid = some t) (hexp : t.expires_at ≤ now) :
    InMemoryTokenStore.get s tid now = (none, eraseTok s tid) := by
  unfold InMemoryTokenStore.get
  rw [h]
  simp only [Token.is_expired]
  rw [if_pos (by simp; omega)]

theorem remove_fst_eq_containsTok (s : Store) (tid : String) :
    (InMemoryTokenStore.remove s tid).1 = containsTok s tid := by
  unfold InMemoryTokenStore.remove
  by_cases hc : containsTok s tid <;> simp [hc]

/-! ## Claim theorems -/

/-- C1: `TokenService.issue_token` fails with a `TokenIssuanceError` and
leaves the store untouched when `ttl_seconds < 1` or `ttl_seconds > 3600`;
otherwise it succeeds, stores a record whose `created_at` is `now` and whose
`expires_at` is `created_at + ttl_seconds`, and returns that `token_id`,
`scope`, `expires_at` and `ttl_seconds`. -/
theorem C1_issue_token_contract (e : Nat → Byte) (now : Nat) (scope : TokenScope)
    (ttl : Int) (md : List (String × String)) (s : Store) :
    ((ttl < 1 ∨ 3600 < ttl) →
      (∃ msg, (TokenService.issue_token e now scope ttl md s).1 =
        .error (.tokenIssuanceError msg)) ∧
      (TokenService.issue_token e now scope ttl md s).2 = s)
    ∧ (1 ≤ ttl → ttl ≤ 3600 →
      ∃ (r : TokenIssuanceResponse) (tk : Token),
        (TokenService.issue_token e now scope ttl md s).1 = .ok r ∧
        lookupTok (TokenService.issue_token e now scope ttl md s).2 r.token_id
          = some tk ∧
        tk.token_id = r.token_id ∧ tk.created_at = now ∧
        tk.expires_at = tk.created_at + ttl.toNat ∧ tk.scope = scope ∧
        tk.metadata = md ∧
        r.scope = scope ∧ r.expires_at = tk.expires_at ∧ r.ttl_seconds = ttl) := by
  constructor
  · intro hbad
    unfold TokenService.issue_token
    by_cases hlt : ttl < 1
    · rw [if_pos hlt]
      exact ⟨⟨_, rfl⟩, rfl⟩
    · rw [if_neg hlt, if_pos (by omega)]
      exact ⟨⟨_, rfl⟩, rfl⟩
  · intro h1 h2
    unfold TokenService.issue_token
    rw [if_neg (by omega), if_neg (by omega)]
    rw [show CryptoService.generate_secret_urlsafe e 32 = tokenUrlsafe e 32 from rfl,
      tokenUrlsafe_ok e 32 (by norm_num)]
    refine ⟨⟨_, scope, now + ttl.toNat, ttl, "Token issued successfully"⟩,
      ⟨_, scope, now, now + ttl.toNat, md⟩,
      rfl, ?_, rfl, rfl, rfl, rfl, rfl, rfl, rfl, rfl⟩
    exact lookupTok_putTok_self s _

/-- C2: `InMemoryTokenStore.get` returns a present, unexpired token and keeps
the store; lazily evicts (and returns absent) a present token with
`expires_at ≤ now`, removing exactly that entry; and returns absent leaving
the store unchanged when the id is not there. -/
theorem C2_store_get_contract (s : Store) (tid : String) (now : Nat)
    (hkeys : keysNodup s) :
    (∀ t, lookupTok s tid = some t → now < t.expires_at →
      InMemoryTokenStore.get s tid now = (some t, s))
    ∧ (∀ t, lookupTok s tid = some t → t.expires_at ≤ now →
      (InMemoryTokenStore.get s tid now).1 = none ∧
      lookupTok (InMemoryTokenStore.get s tid now).2 tid = none ∧
      ∀ tid', tid' ≠ tid →
        lookupTok (InMemoryTokenStore.get s tid now).2 tid' = lookupTok s tid')
    ∧ (lookupTok s tid = none → InMemoryTokenStore.get s tid now = (none, s)) := by
  refine ⟨?_, ?_, ?_⟩
  · intro t hl hlive
    exact get_of_lookup_live s tid now t hl hlive
  · intro t hl hexp
    rw [get_of_lookup_expired s tid now t hl hexp]
    exact ⟨rfl, lookupTok_eraseTok_self s tid hkeys,
      fun tid' h' => lookupTok_eraseTok_other s tid tid' h'⟩
  · intro hl
    exact get_of_lookup_none s tid now hl

/-- C3: `cleanup_expired` keeps exactly the entries with `now < expires_at`,
the removed count plus the kept size is the original size, and `count` sweeps
first, so what it reports is the swept size and its resulting store holds no
entry with `expires_at ≤ now`. -/
theorem C3_sweep_and_count (s : Store) (now : Nat) :
    (∀ p : String × Token,
      p ∈ (InMemoryTokenStore.cleanup_expired s now).2 ↔
        p ∈ s ∧ now < p.2.expires_at)
    ∧ (InMemoryTokenStore.cleanup_expired s now).1 +
        (InMemoryTokenStore.cleanup_expired s now).2.length = s.length
    ∧ (InMemoryTokenStore.count s now).1 =
        (InMemoryTokenStore.cleanup_expired s now).2.length
    ∧ ((InMemoryTokenStore.count s now).2.all
        (fun p => decide (now < p.2.expires_at))) = true := by
  refine ⟨?_, ?_, rfl, ?_⟩
  · intro p
    simp [InMemoryTokenStore.cleanup_expired, List.mem_filter, Nat.not_le]
  · simp only [InMemoryTokenStore.cleanup_expired]
    induction s with
    | nil => rfl
    | cons p rest ih =>
      by_cases hp : p.2.expires_at ≤ now
      · simp only [List.filter_cons]
        simp [hp] at ih ⊢
        omega
      · simp only [List.filter_cons]
        simp [hp] at ih ⊢
        omega
  · simp only [InMemoryTokenStore.count, InMemoryTokenStore.cleanup_expired,
      List.all_eq_true]
    intro p hp
    simp only [List.mem_filter] at hp
    simpa using hp.2

/-- C4: the validate operation (FastAPI request-model validation followed by
`TokenService.validate_token`) rejects an empty `token_id` synchronously with
a request-validation error (the spec's `InvalidParameter`), and accepts any
non-empty one, returning a normal validation response. -/
theorem C4_validate_requires_nonempty (s : Store) (now : Nat) (tid : String) :
    (tid = "" → validateEndpoint s now tid =
      .error (.validationError "String should have at least 1 character"))
    ∧ (1 ≤ tid.length → ∃ out, validateEndpoint s now tid = .ok out) := by
  constructor
  · intro h
    subst h
    rfl
  · intro h
    exact ⟨TokenService.validate_token s now tid,
      by simp [validateEndpoint, mkTokenValidationRequest, if_pos h, Except.map]⟩

/-- C10: `remove` (hence `revoke_token`) reports `true` exactly when the id is
a key of the underlying map, with no expiry check — so an expired but not yet
evicted token is revoked with `true` even though `get` and `validate_token`
already treat it as gone. -/
theorem C10_revoke_ignores_expiry (s : Store) (tid : String) (now : Nat) :
    ((TokenService.revoke_token s tid).1 = true ↔ ∃ t, lookupTok s tid = some t)
    ∧ (∀ t, lookupTok s tid = some t → t.expires_at ≤ now →
      (TokenService.revoke_token s tid).1 = true ∧
      (InMemoryTokenStore.get s tid now).1 = none ∧
      (TokenService.validate_token s now tid).1.valid = false) := by
  have hrev : ∀ s' tid', TokenService.revoke_token s' tid' =
      InMemoryTokenStore.remove s' tid' := fun _ _ => rfl
  constructor
  · rw [hrev, remove_fst_eq_containsTok]
    exact containsTok_iff s tid
  · intro t hl hexp
    refine ⟨?_, ?_, ?_⟩
    · rw [hrev, remove_fst_eq_containsTok]
      exact (containsTok_iff s tid).mpr ⟨t, hl⟩
    · rw [get_of_lookup_expired s tid now t hl hexp]
    · unfold TokenService.validate_token
      rw [get_of_lookup_expired s tid now t hl hexp]

/-- C5: authenticated-encryption round trip — decrypting the result of
`CryptoService.encrypt` under the same key with no age limit recovers exactly
the plaintext, for every byte string (the empty string included), every
timestamp, every 16-byte IV and every genuine block cipher. -/
theorem C5_encrypt_decrypt_roundtrip (fk : FernetKey) (hbc : goodCipher fk.cipher)
    (ts now : Nat) (iv m : List Byte) (hiv : iv.length = 16) :
    ∃ c, CryptoService.encrypt fk ts iv m = .ok c ∧
      CryptoService.decrypt fk c none now = .ok m := by
  refine ⟨fernetEncrypt fk ts iv m, rfl, ?_⟩
  unfold CryptoService.decrypt
  rw [fernetDecrypt_fernetEncrypt fk hbc ts now iv m hiv]

/-- C6: `CryptoService.decrypt` either succeeds or fails with the single
error `DecryptionError("Invalid or expired token")` — whatever the input
token, key, age limit or clock, so wrong key, corruption and staleness are
indistinguishable in the externally visible error. -/
theorem C6_decrypt_single_error_type (fk : FernetKey) (tok : List Byte)
    (ttl : Option Nat) (now : Nat) :
    (∃ m, CryptoService.decrypt fk tok ttl now = .ok m) ∨
    CryptoService.decrypt fk tok ttl now =
      .error (.decryptionError "Invalid or expired token") := by
  unfold CryptoService.decrypt
  cases fernetDecrypt fk tok ttl now with
  | none => exact .inr rfl
  | some m => exact .inl ⟨m, rfl⟩

theorem derive_key_from_password_length (e : Nat → Byte) (pw : String)
    (salt : Option (List Byte)) (rs : Bool) :
    (CryptoService.derive_key_from_password e pw salt rs).1.length = 44 := by
  unfold CryptoService.derive_key_from_password
  dsimp only
  rw [b64encode_length, pbkdf2HmacSha256_length _ _ _ _ (by omega)]

theorem derive_key_some_eq (e : Nat → Byte) (pw : String) (salt : List Byte)
    (rs : Bool) :
    CryptoService.derive_key_from_password e pw (some salt) rs =
      (b64encode (pbkdf2HmacSha256 (utf8Bytes pw) salt
        CryptoService.PBKDF2_ITERATIONS 32),
       if rs then some salt else none) := rfl

/-- C7 (amended): `derive_key_from_password` returns the base64 encoding of a
32-byte PBKDF2 key — 44 bytes, not 32 — and is deterministic in
`(password, salt)`: the entropy stream is irrelevant once a salt is given. -/
theorem C7_derive_key_amended (e1 e2 : Nat → Byte) (pw : String)
    (salt : List Byte) (rs : Bool) :
    (CryptoService.derive_key_from_password e1 pw (some salt) rs).1.length = 44
    ∧ (CryptoService.derive_key_from_password e1 pw none rs).1.length = 44
    ∧ (∃ raw, raw.length = 32 ∧
        (CryptoService.derive_key_from_password e1 pw (some salt) rs).1 = b64encode raw)
    ∧ CryptoService.derive_key_from_password e1 pw (some salt) rs =
        CryptoService.derive_key_from_password e2 pw (some salt) rs := by
  refine ⟨derive_key_from_password_length e1 pw (some salt) rs,
    derive_key_from_password_length e1 pw none rs,
    ⟨pbkdf2HmacSha256 (utf8Bytes pw) salt CryptoService.PBKDF2_ITERATIONS 32,
     pbkdf2HmacSha256_length _ _ _ _ (by omega), ?_⟩, ?_⟩
  · rw [derive_key_some_eq]
  · rw [derive_key_some_eq, derive_key_some_eq]

/-- C7 counterexample: at a concrete password and salt the returned key is not
32 bytes long (it is 44: the base64 encoding of the 32-byte derived key). -/
theorem C7_counterexample :
    (CryptoService.derive_key_from_password (fun _ => 0) "password"
      (some (List.replicate 16 0)) false).1.length ≠ 32 := by
  rw [derive_key_from_password_length]
  decide

/-- The 16-byte salt `hash_data` / `derive_key_from_password` generate when
none is supplied. -/
def genSalt16 (e : Nat → Byte) : List Byte := (List.range 16).map (fun i => e i % 256)

theorem genSalt16_length (e : Nat → Byte) : (genSalt16 e).length = 16 := by
  simp [genSalt16]

theorem hash_data_some_eq (e : Nat → Byte) (data salt : List Byte) (rs : Bool) :
    CryptoService.hash_data e data (some salt) rs =
      if rs then .digestSalt (sha256 (salt ++ data)) salt
      else .digest (sha256 (salt ++ data)) := rfl

theorem hash_data_none_eq (e : Nat → Byte) (data : List Byte) (rs : Bool) :
    CryptoService.hash_data e data none rs =
      if rs then .digestSalt (sha256 (genSalt16 e ++ data)) (genSalt16 e)
      else .digest (sha256 (genSalt16 e ++ data)) := rfl

/-- C8 (amended): the digest is always exactly 32 bytes; with a salt supplied
the result is a deterministic function of `(data, salt)`; with the salt
omitted a 16-byte salt is generated, but it is returned alongside the digest
only when `return_salt` is set — with the default `return_salt=False` the
generated salt is discarded. -/
theorem C8_hash_data_amended (e1 e2 : Nat → Byte) (data salt : List Byte)
    (rs : Bool) :
    (CryptoService.hash_data e1 data (some salt) rs).digestBytes.length = 32
    ∧ (CryptoService.hash_data e1 data none rs).digestBytes.length = 32
    ∧ (CryptoService.hash_data e1 data (some salt) rs).digestBytes
        = sha256 (salt ++ data)
    ∧ CryptoService.hash_data e1 data (some salt) rs =
        CryptoService.hash_data e2 data (some salt) rs
    ∧ (∃ gs, (CryptoService.hash_data e1 data none true).returnedSalt = some gs ∧
        gs.length = 16 ∧
        (CryptoService.hash_data e1 data none true).digestBytes
          = sha256 (gs ++ data))
    ∧ (CryptoService.hash_data e1 data none false).returnedSalt = none := by
  refine ⟨?_, ?_, ?_, rfl, ?_, ?_⟩
  · rw [hash_data_some_eq]
    cases rs <;> simp [CryptoService.HashResult.digestBytes, sha256_length]
  · rw [hash_data_none_eq]
    cases rs <;> simp [CryptoService.HashResult.digestBytes, sha256_length]
  · rw [hash_data_some_eq]
    cases rs <;> simp [CryptoService.HashResult.digestBytes]
  · exact ⟨genSalt16 e1, rfl, genSalt16_length e1, rfl⟩
  · rfl

/-- C8 counterexample: a call with the salt omitted (and the default
`return_salt=False`) returns no salt at all alongside the digest. -/
theorem C8_counterexample :
    (CryptoService.hash_data (fun _ => 0) [] none false).returnedSalt = none := rfl

/-- C9 (amended): the raw generator validates its own length argument,
failing with `ValueError` ("InvalidParameter") for every `n ≤ 0` and
returning exactly `n` bytes for `n > 0`.  The hex and URL-safe variants do
not validate: they fail only for `n < 0` (propagated from `os.urandom`) and
return an empty string for `n = 0`. -/
theorem C9_random_generation (e : Nat → Byte) (n : Int) :
    (n ≤ 0 → ∃ msg, CryptoService.generate_secret e n = .error (.valueError msg))
    ∧ (0 < n → ∃ bs, CryptoService.generate_secret e n = .ok bs ∧
        bs.length = n.toNat)
    ∧ (n < 0 →
        (∃ m1, CryptoService.generate_secret_hex e n = .error (.valueError m1)) ∧
        (∃ m2, CryptoService.generate_secret_urlsafe e n = .error (.valueError m2)))
    ∧ (n = 0 → CryptoService.generate_secret_hex e n = .ok "" ∧
        CryptoService.generate_secret_urlsafe e n = .ok "")
    ∧ (0 < n → ∃ str, CryptoService.generate_secret_hex e n = .ok str ∧
        str.length = 2 * n.toNat) := by
  refine ⟨?_, ?_, ?_, ?_, ?_⟩
  · intro h
    unfold CryptoService.generate_secret
    rw [if_pos h]
    exact ⟨_, rfl⟩
  · intro h
    unfold CryptoService.generate_secret
    rw [if_neg (by omega)]
    unfold tokenBytes
    rw [if_neg (by omega)]
    exact ⟨_, rfl, by simp⟩
  · intro h
    exact ⟨⟨"negative argument not allowed", tokenHex_neg e n h⟩,
      ⟨"negative argument not allowed", tokenUrlsafe_neg e n h⟩⟩
  · intro h
    subst h
    exact ⟨rfl, rfl⟩
  · intro h
    refine ⟨hexOfBytes ((List.range n.toNat).map (fun i => e i % 256)), ?_, ?_⟩
    · exact tokenHex_ok e n (by omega)
    · rw [hexOfBytes_length]
      simp

/-- C9 counterexample: `generate_secret_hex` at length 0 does not fail — it
returns the empty string. -/
theorem C9_counterexample :
    CryptoService.generate_secret_hex (fun _ => 0) 0 = .ok "" := rfl

/-! ## Concrete fixtures for the witnesses -/

/-- A concrete scope. -/
def scope0 : TokenScope := ⟨"doc", ["read"], []⟩

/-- A concrete token that expires at time 5. -/
def tok0 : Token := ⟨"a", scope0, 0, 5, []⟩

/-- A concrete one-entry store. -/
def store0 : Store := [("a", tok0)]

theorem store0_nodup : keysNodup store0 := by
  simp [keysNodup, store0]

/-- The identity block cipher: a trivially genuine 16-byte block cipher. -/
def bcId : BlockCipher := ⟨fun b => b, fun b => b⟩

theorem bcId_good : goodCipher bcId := fun _ hb => ⟨rfl, hb⟩

/-! ## Witnesses -/

/-- C1 witness at `ttl = 0` (failure) and `ttl = 300` (success). -/
theorem C1_witness :
    ((∃ msg, (TokenService.issue_token (fun _ => 0) 0 scope0 0 [] []).1 =
        .error (.tokenIssuanceError msg)) ∧
      (TokenService.issue_token (fun _ => 0) 0 scope0 0 [] []).2 = [])
    ∧ (∃ (r : TokenIssuanceResponse) (tk : Token),
        (TokenService.issue_token (fun _ => 0) 5 scope0 300 [] []).1 = .ok r ∧
        lookupTok (TokenService.issue_token (fun _ => 0) 5 scope0 300 [] []).2
          r.token_id = some tk ∧
        tk.token_id = r.token_id ∧ tk.created_at = 5 ∧
        tk.expires_at = tk.created_at + (300 : Int).toNat ∧ tk.scope = scope0 ∧
        tk.metadata = [] ∧ r.scope = scope0 ∧ r.expires_at = tk.expires_at ∧
        r.ttl_seconds = 300) :=
  ⟨(C1_issue_token_contract (fun _ => 0) 0 scope0 0 [] []).1 (Or.inl (by norm_num)),
   (C1_issue_token_contract (fun _ => 0) 5 scope0 300 [] []).2
     (by norm_num) (by norm_num)⟩

/-- C2 witness: live read at time 3, lazy eviction at time 10, and a miss. -/
theorem C2_witness :
    InMemoryTokenStore.get store0 "a" 3 = (some tok0, store0)
    ∧ (InMemoryTokenStore.get store0 "a" 10).1 = none
    ∧ lookupTok (InMemoryTokenStore.get store0 "a" 10).2 "a" = none
    ∧ lookupTok (InMemoryTokenStore.get store0 "a" 10).2 "b" = lookupTok store0 "b"
    ∧ InMemoryTokenStore.get store0 "zzz" 3 = (none, store0) :=
  ⟨(C2_store_get_contract store0 "a" 3 store0_nodup).1 tok0 rfl (by norm_num [tok0]),
   ((C2_store_get_contract store0 "a" 10 store0_nodup).2.1 tok0 rfl
     (by norm_num [tok0])).1,
   ((C2_store_get_contract store0 "a" 10 store0_nodup).2.1 tok0 rfl
     (by norm_num [tok0])).2.1,
   ((C2_store_get_contract store0 "a" 10 store0_nodup).2.1 tok0 rfl
     (by norm_num [tok0])).2.2 "b" (by decide),
   (C2_store_get_contract store0 "zzz" 3 store0_nodup).2.2 rfl⟩

/-- C3 witness at the concrete one-entry store, swept at time 10 (expired). -/
theorem C3_witness :
    ((("a", tok0) ∈ (InMemoryTokenStore.cleanup_expired store0 10).2) ↔
      (("a", tok0) ∈ store0 ∧ 10 < tok0.expires_at))
    ∧ (InMemoryTokenStore.cleanup_expired store0 10).1 +
        (InMemoryTokenStore.cleanup_expired store0 10).2.length = store0.length
    ∧ (InMemoryTokenStore.count store0 10).1 =
        (InMemoryTokenStore.cleanup_expired store0 10).2.length
    ∧ ((InMemoryTokenStore.count store0 10).2.all
        (fun p => decide (10 < p.2.expires_at))) = true :=
  ⟨(C3_sweep_and_count store0 10).1 ("a", tok0),
   (C3_sweep_and_count store0 10).2.1,
   (C3_sweep_and_count store0 10).2.2.1,
   (C3_sweep_and_count store0 10).2.2.2⟩

/-- C4 witness: the empty id is rejected, a one-character id is accepted. -/
theorem C4_witness :
    validateEndpoint [] 0 "" =
      .error (.validationError "String should have at least 1 character")
    ∧ (∃ out, validateEndpoint [] 0 "x" = .ok out) :=
  ⟨(C4_validate_requires_nonempty [] 0 "").1 rfl,
   (C4_validate_requires_nonempty [] 0 "x").2 (by decide)⟩

/-- C5 witness: round trip of `[1, 2, 3]` under the identity block cipher
with a zero IV. -/
theorem C5_witness :
    ∃ c, CryptoService.encrypt ⟨[], bcId⟩ 0 (List.replicate 16 0) [1, 2, 3] = .ok c ∧
      CryptoService.decrypt ⟨[], bcId⟩ c none 0 = .ok [1, 2, 3] :=
  C5_encrypt_decrypt_roundtrip ⟨[], bcId⟩ bcId_good 0 0 (List.replicate 16 0)
    [1, 2, 3] (by simp)

/-- C9 witness at `n = -1`, `n = 0` and `n = 5`. -/
theorem C9_witness :
    (∃ msg, CryptoService.generate_secret (fun _ => 0) (-1) =
      .error (.valueError msg))
    ∧ (∃ bs, CryptoService.generate_secret (fun _ => 0) 5 = .ok bs ∧
        bs.length = (5 : Int).toNat)
    ∧ (∃ m1, CryptoService.generate_secret_hex (fun _ => 0) (-1) =
        .error (.valueError m1))
    ∧ (∃ m2, CryptoService.generate_secret_urlsafe (fun _ => 0) (-1) =
        .error (.valueError m2))
    ∧ (CryptoService.generate_secret_hex (fun _ => 0) 0 = .ok "" ∧
        CryptoService.generate_secret_urlsafe (fun _ => 0) 0 = .ok "")
    ∧ (∃ str, CryptoService.generate_secret_hex (fun _ => 0) 5 = .ok str ∧
        str.length = 2 * (5 : Int).toNat) :=
  ⟨(C9_random_generation (fun _ => 0) (-1)).1 (by norm_num),
   (C9_random_generation (fun _ => 0) 5).2.1 (by norm_num),
   ((C9_random_generation (fun _ => 0) (-1)).2.2.1 (by norm_num)).1,
   ((C9_random_generation (fun _ => 0) (-1)).2.2.1 (by norm_num)).2,
   (C9_random_generation (fun _ => 0) 0).2.2.2.1 rfl,
   (C9_random_generation (fun _ => 0) 5).2.2.2.2 (by norm_num)⟩

/-- C10 witness: the token in `store0` is expired at time 10, yet revoke
reports `true` while `get` and `validate` report it gone. -/
theorem C10_witness :
    (TokenService.revoke_token store0 "a").1 = true
    ∧ (InMemoryTokenStore.get store0 "a" 10).1 = none
    ∧ (TokenService.validate_token store0 10 "a").1.valid = false :=
  (C10_revoke_ignores_expiry store0 "a" 10).2 tok0 rfl (by norm_num [tok0])

end EventBridge
